import Mathlib

/-!
Verification development for the webcli repository.

The definitions below are a shallow embedding of the core of the repository:

* `sanitizeVerbName`, `htmlParse` — the structural extractor
  (`src/lib/parser.ts`, class `HTMLParser`); the cheerio DOM selections are
  abstracted as lists of element records (`Anchor`, `FormEl`, `ButtonEl`)
  given in document order, and the per-element logic is translated verbatim.
* `parseAbsolute`, `urlResolve`, `resolveUrl` — a model of the WHATWG
  `new URL(href, base)` platform API as used by the source, restricted to
  the `scheme://host/rest` shape (no ports, credentials, percent-encoding
  or dot-segment normalisation); references outside this shape fail to
  parse, which the source code catches and passes through unchanged.
* `validateTabName`, `setTab`, `updateTab`, `deleteTab`, `mergeTab` — the
  per-record tab state store (`validateTabName`, class `StateManager`);
  the store is modelled as an association list name → Tab standing for the
  one-JSON-file-per-tab directory, and the JS object merge
  `{...existing, ...updates}` followed by JSON serialisation (which drops
  fields whose value is `undefined`) is modelled by `Option (Option _)`
  patch fields (`some none` = explicitly set to `undefined`).
* `discoverVerbs`, `executeVerb`, `dispatchPlan` — the tab command
  (`src/commands/tab.ts`, `createTabCommand`): the verb-cache policy branch
  and the execution-resolution path.  The external Fetcher and Planner are
  modelled as explicit inputs (a `FetchResult` value, a
  `Verb → Option ExecutionPlan` function); timestamps (ISO strings and
  `Date` values in the source) are modelled as milliseconds since the
  epoch, and the two clock reads inside one invocation are modelled as a
  single instant `now`.

JS strings are modelled as Lean strings (one `Char` per code point; the
source's UTF-16 length is the same on the ASCII inputs the claims use).
`toLowerCase` is modelled on its ASCII fragment: non-ASCII case mappings
only affect characters that the very next pipeline step strips.
-/

namespace WebCli

/-- ECMAScript white space class: the set matched by the regex `\s`
(WhiteSpace union LineTerminator), by code point. -/
def jsIsWs (c : Char) : Bool :=
  let n := c.toNat
  n == 9 || n == 10 || n == 11 || n == 12 || n == 13 || n == 32 ||
  n == 160 || n == 5760 || (8192 ≤ n && n ≤ 8202) || n == 8232 ||
  n == 8233 || n == 8239 || n == 8287 || n == 12288 || n == 65279

/-- Lower-case ASCII letter or ASCII digit, i.e. the class `[a-z0-9]`. -/
def isLowerAlphaNum (c : Char) : Bool :=
  (97 ≤ c.toNat && c.toNat ≤ 122) || (48 ≤ c.toNat && c.toNat ≤ 57)

/-- ASCII fragment of JS `String.prototype.toLowerCase`, per character. -/
def charLower (c : Char) : Char :=
  if 65 ≤ c.toNat && c.toNat ≤ 90 then Char.ofNat (c.toNat + 32) else c

/-- Character kept by `.replace(/[^a-z0-9\s-]/g, '')`. -/
def keepChar (c : Char) : Bool :=
  isLowerAlphaNum c || jsIsWs c || c == '-'

/-- Collapse every maximal run of characters satisfying `p` into the single
character `rep`; the flag says whether we are currently inside a run.  With
`p` the white-space class and `rep` a hyphen this is the source's global
replacement of `\s+` by `-`; with `p` the hyphen class it is the global
replacement of one-or-more hyphens by a single hyphen. -/
def collapseRuns (p : Char → Bool) (rep : Char) : Bool → List Char → List Char
  | _, [] => []
  | b, c :: cs =>
    if p c then
      (if b then collapseRuns p rep true cs else rep :: collapseRuns p rep true cs)
    else
      c :: collapseRuns p rep false cs

/-- Remove one leading hyphen when present (the `^-` alternative of
`.replace(/^-|-$/g, '')`). -/
def dropLeadHyphen : List Char → List Char
  | [] => []
  | c :: cs => if c == '-' then cs else c :: cs

/-- Remove one trailing hyphen when present (the `-$` alternative of
`.replace(/^-|-$/g, '')`). -/
def dropTrailHyphen : List Char → List Char
  | [] => []
  | [c] => if c == '-' then [] else [c]
  | c :: d :: t => c :: dropTrailHyphen (d :: t)

/-- The sanitisation pipeline of `HTMLParser.sanitizeVerbName` on a list of
characters: lower-case, strip characters outside `[a-z0-9\s-]`, collapse
white-space runs to `-`, collapse hyphen runs, trim one leading and one
trailing hyphen, truncate to 50 characters. -/
def sanitizeList (l : List Char) : List Char :=
  (dropTrailHyphen (dropLeadHyphen
    (collapseRuns (fun c => c == '-') '-' false
      (collapseRuns jsIsWs '-' false
        ((l.map charLower).filter keepChar))))).take 50

/-- Model of `HTMLParser.sanitizeVerbName`. -/
def sanitizeVerbName (s : String) : String :=
  ⟨sanitizeList s.data⟩

/-- JS `String.prototype.trim`: strip ECMAScript white space from both
ends. -/
def jsTrim (s : String) : String :=
  ⟨(s.data.dropWhile jsIsWs).reverse.dropWhile jsIsWs |>.reverse⟩

/-- JS `a || b` on strings: keep `a` unless it is the empty string. -/
def jsOrS (a b : String) : String :=
  if a == "" then b else a

/-- JS truthiness of an optional string (`undefined` and `""` are falsy). -/
def jsTruthyStr : Option String → Bool
  | none => false
  | some s => !(s == "")

/-! ## URL model

Model of the WHATWG `new URL` constructor as used by the source, restricted
to URLs of the shape `scheme://host/rest`. -/

/-- A parsed URL: scheme, non-empty host, and the rest of the URL starting
with `/` (path, query and fragment, kept as written). -/
structure JsURL where
  scheme : String
  host : String
  rest : String
deriving DecidableEq

/-- Serialisation (`URL#toString` / `URL#href`): an empty path serialises
as `/`. -/
def JsURL.serialize (u : JsURL) : String :=
  u.scheme ++ "://" ++ u.host ++ u.rest

/-- Origin of a URL (`URL#origin`): scheme and host. -/
def JsURL.origin (u : JsURL) : String :=
  u.scheme ++ "://" ++ u.host

/-- Split a host-and-rest fragment at the first `/`: the host is everything
before the first `/` (it must be non-empty), the rest is from that `/` on
(defaulting to `/` when absent). -/
def splitHostRest (l : List Char) : Option (String × String) :=
  let host := l.takeWhile (fun c => !(c == '/'))
  let rest := l.dropWhile (fun c => !(c == '/'))
  if host.isEmpty then none
  else some (⟨host⟩, if rest.isEmpty then "/" else ⟨rest⟩)

/-- Split a character list at the first occurrence of `://`. -/
def splitSchemeSep : List Char → Option (List Char × List Char)
  | [] => none
  | ':' :: '/' :: '/' :: rest => some ([], rest)
  | c :: cs => (splitSchemeSep cs).map (fun p => (c :: p.1, p.2))

/-- ASCII letter. -/
def isAsciiLetter (c : Char) : Bool :=
  (65 ≤ c.toNat && c.toNat ≤ 90) || (97 ≤ c.toNat && c.toNat ≤ 122)

/-- Character allowed after the first character of a URL scheme. -/
def isSchemeChar (c : Char) : Bool :=
  isAsciiLetter c || (48 ≤ c.toNat && c.toNat ≤ 57) || c == '+' || c == '-' || c == '.'

/-- Parse an absolute URL of the shape `scheme://host/rest`; any other
shape fails (the source catches the resulting exception). -/
def parseAbsolute (s : String) : Option JsURL :=
  match splitSchemeSep s.data with
  | none => none
  | some (sch, hr) =>
    match sch with
    | [] => none
    | c :: cs =>
      if isAsciiLetter c && cs.all isSchemeChar then
        match splitHostRest hr with
        | none => none
        | some (host, rest) => some ⟨⟨sch⟩, host, rest⟩
      else none

/-- JS `String.prototype.startsWith` (and Lean `String.startsWith`),
stated over the character lists so that it evaluates inside the kernel. -/
def strStartsWith (s pre : String) : Bool :=
  pre.data.isPrefixOf s.data

/-- Directory prefix of a path: everything up to and including the last
`/`. -/
def dirOfPath (rest : List Char) : List Char :=
  (rest.reverse.dropWhile (fun c => !(c == '/'))).reverse

/-- Model of `new URL(href, base)` for an already-parsed base: an absolute
reference ignores the base, a scheme-relative `//host/rest` reference
inherits the base scheme, a path-absolute `/rest` reference keeps the base
origin, the empty reference yields the base itself, and any other reference
resolves against the directory of the base path. -/
def urlResolve (base : JsURL) (href : String) : Option JsURL :=
  match parseAbsolute href with
  | some u => some u
  | none =>
    if strStartsWith href "//" then
      match splitHostRest (href.data.drop 2) with
      | none => none
      | some (host, rest) => some ⟨base.scheme, host, rest⟩
    else if strStartsWith href "/" then some ⟨base.scheme, base.host, href⟩
    else if href == "" then some base
    else some ⟨base.scheme, base.host, ⟨dirOfPath base.rest.data⟩ ++ href⟩

/-- Model of `HTMLParser.resolveUrl`: resolve `href` against `baseUrl` and
serialise; when either the base or the resolution fails to parse, return
`href` unchanged (the `catch` branch of the source). -/
def resolveUrl (href baseUrl : String) : String :=
  match parseAbsolute baseUrl with
  | none => href
  | some base =>
    match urlResolve base href with
    | none => href
    | some u => u.serialize

/-! ## Data model (`src/types/index.ts`) -/

/-- The `type` union of a verb: `navigate`, `form` or `action`. -/
inductive VerbType where
  | navigate
  | form
  | action
deriving DecidableEq

/-- The `method` union of an execution plan: `navigate`, `form` or
`action`. -/
inductive PlanMethod where
  | navigate
  | form
  | action
deriving DecidableEq

/-- A verb (`interface Verb`): name, description, type, optional parameter
names, optional target, optional subverbs. -/
inductive Verb where
  | mk (name description : String) (vtype : VerbType)
       (params : Option (List String)) (target : Option String)
       (subverbs : Option (List Verb)) : Verb

/-- The `name` field of a verb. -/
def Verb.name : Verb → String
  | .mk n _ _ _ _ _ => n

/-- The `description` field of a verb. -/
def Verb.description : Verb → String
  | .mk _ d _ _ _ _ => d

/-- The `type` field of a verb. -/
def Verb.vtype : Verb → VerbType
  | .mk _ _ t _ _ _ => t

/-- The `params` field of a verb. -/
def Verb.params : Verb → Option (List String)
  | .mk _ _ _ p _ _ => p

/-- The `target` field of a verb. -/
def Verb.target : Verb → Option String
  | .mk _ _ _ _ t _ => t

/-- The `subverbs` field of a verb. -/
def Verb.subverbs : Verb → Option (List Verb)
  | .mk _ _ _ _ _ s => s

mutual

/-- Decidable equality of verbs (the derive handler does not support the
nested occurrence in `subverbs`). -/
def Verb.decEq : (a b : Verb) → Decidable (a = b)
  | .mk n1 d1 t1 p1 g1 s1, .mk n2 d2 t2 p2 g2 s2 =>
    have hs : Decidable (s1 = s2) :=
      match s1, s2 with
      | none, none => isTrue rfl
      | some l1, some l2 =>
        match Verb.listDecEq l1 l2 with
        | isTrue h => isTrue (by rw [h])
        | isFalse h => isFalse (fun hc => h (Option.some.inj hc))
      | none, some _ => isFalse (fun hc => Option.noConfusion hc)
      | some _, none => isFalse (fun hc => Option.noConfusion hc)
    decidable_of_iff
      (n1 = n2 ∧ d1 = d2 ∧ t1 = t2 ∧ p1 = p2 ∧ g1 = g2 ∧ s1 = s2)
      (by rw [Verb.mk.injEq])

/-- Decidable equality of verb lists. -/
def Verb.listDecEq : (a b : List Verb) → Decidable (a = b)
  | [], [] => isTrue rfl
  | [], _ :: _ => isFalse (fun hc => List.noConfusion hc)
  | _ :: _, [] => isFalse (fun hc => List.noConfusion hc)
  | a :: as, b :: bs =>
    match Verb.decEq a b, Verb.listDecEq as bs with
    | isTrue h1, isTrue h2 => isTrue (by rw [h1, h2])
    | isFalse h1, _ => isFalse (fun hc => h1 (List.cons.inj hc).1)
    | _, isFalse h2 => isFalse (fun hc => h2 (List.cons.inj hc).2)

end

instance : DecidableEq Verb := Verb.decEq

/-- An execution plan (`interface ExecutionPlan`). -/
structure ExecutionPlan where
  method : PlanMethod
  target_url : Option String := none
  command : Option String := none
  description : String
deriving DecidableEq

/-- A tab record (`interface Tab`).  Mappings are association lists in JS
object insertion order; ISO timestamps are milliseconds since the epoch. -/
structure Tab where
  current_url : String
  last_updated : Nat
  verb_cache : Option (List (String × Verb)) := none
  verb_cache_expires : Option Nat := none
  execution_plan_cache : Option (List (String × ExecutionPlan)) := none
deriving DecidableEq

/-! ## JS object operations on association lists -/

/-- JS property read `m[k]` on an object modelled as an association
list. -/
def assocGet {α : Type} (m : List (String × α)) (k : String) : Option α :=
  (m.find? (fun p => p.1 == k)).map (fun p => p.2)

/-- JS property write `m[k] = v`: overwrite in place when the key exists,
else append (JS objects keep insertion order). -/
def assocSet {α : Type} (m : List (String × α)) (k : String) (v : α) :
    List (String × α) :=
  if m.any (fun p => p.1 == k) then
    m.map (fun p => if p.1 == k then (k, v) else p)
  else m ++ [(k, v)]

/-- Remove a key (models deleting the backing record; a no-op when the key
is absent). -/
def assocRemove {α : Type} (m : List (String × α)) (k : String) :
    List (String × α) :=
  m.filter (fun p => !(p.1 == k))

/-- JS `Object.values`. -/
def assocValues {α : Type} (m : List (String × α)) : List α :=
  m.map (fun p => p.2)

/-! ## Structural extractor (`src/lib/parser.ts`, `HTMLParser.parse`)

The cheerio selections are abstracted as element records in document order:
`Anchor` for the selection of anchors carrying an `href` attribute,
`FormEl` for forms (with their first submit control and their fields), and
`ButtonEl` for the clickable controls outside any form. -/

/-- An anchor element: its `href` attribute and its visible text. -/
structure Anchor where
  href : Option String
  text : String

/-- A field of a form: its `name` and `type` attributes. -/
structure FormField where
  fname : Option String
  ftype : Option String

/-- The first submit control of a form: its visible text and its `value`
attribute. -/
structure SubmitBtn where
  text : String
  value : Option String

/-- A form element: its `action` attribute, its first submit control when
one exists, and its named fields in document order. -/
structure FormEl where
  action : Option String
  submit : Option SubmitBtn
  fields : List FormField

/-- A clickable control outside any form: its visible text and its
`onclick` and `data-action` attributes. -/
structure ButtonEl where
  text : String
  onclick : Option String
  dataAction : Option String

/-- A page: the three cheerio selections in document order. -/
structure Page where
  anchors : List Anchor
  forms : List FormEl
  buttons : List ButtonEl

/-- The result of a parse (`interface ParsedPage`). -/
structure ParsedPage where
  verbs : List Verb
  text : String

/-- The anchor pass of `HTMLParser.parse`: skip when `href` or the trimmed
text is falsy or the text length is outside `[3,100]`; otherwise produce a
`navigate` verb named by sanitising the text, targeting the resolved
reference. -/
def anchorVerb (currentUrl : String) (a : Anchor) : Option Verb :=
  match a.href with
  | none => none
  | some href =>
    let linkText := jsTrim a.text
    if href == "" || linkText == "" then none
    else if linkText.length < 3 || linkText.length > 100 then none
    else
      some (Verb.mk (sanitizeVerbName linkText) ("Navigate to: " ++ linkText)
        .navigate (some []) (some (resolveUrl href currentUrl)) none)

/-- The form pass of `HTMLParser.parse` for the form at index `i`: name
from the submit control's text or `value`, falling back to `form-<i>`;
params collect the `name` of every field not typed `submit` or `button`;
target is the `action` reference (defaulting to the empty string) resolved
against the page URL. -/
def formVerb (currentUrl : String) (i : Nat) (f : FormEl) : Verb :=
  let action := match f.action with
    | none => ""
    | some a => a
  let submitText := match f.submit with
    | none => ""
    | some b => jsTrim b.text
  let submitValue := match f.submit with
    | none => ""
    | some b => match b.value with
      | none => ""
      | some v => v
  let formName := jsOrS submitText (jsOrS submitValue ("form-" ++ toString i))
  let fields := f.fields.filterMap (fun fd =>
    match fd.fname with
    | none => none
    | some nm =>
      if nm == "" then none
      else
        let ty := match fd.ftype with
          | none => ""
          | some t => t
        if ty == "submit" || ty == "button" then none else some nm)
  Verb.mk (sanitizeVerbName formName)
    ("Submit form: " ++ formName ++
      (if fields.length > 0 then " (fields: " ++ String.intercalate ", " fields ++ ")" else ""))
    .form (some fields) (some (resolveUrl action currentUrl)) none

/-- The button pass of `HTMLParser.parse`: skip when the trimmed text is
falsy or shorter than 2 characters, or when neither `onclick` nor
`data-action` is truthy; otherwise produce an `action` verb whose target is
the first truthy of the two attributes. -/
def buttonVerb (b : ButtonEl) : Option Verb :=
  let buttonText := jsTrim b.text
  if buttonText == "" || buttonText.length < 2 then none
  else if jsTruthyStr b.onclick || jsTruthyStr b.dataAction then
    let onclick := match b.onclick with
      | none => ""
      | some s => s
    let dataAction := match b.dataAction with
      | none => ""
      | some s => s
    some (Verb.mk (sanitizeVerbName buttonText) ("Click button: " ++ buttonText)
      .action (some []) (some (jsOrS onclick (jsOrS dataAction ""))) none)
  else none

/-- All candidate verbs of a page in extraction order: anchors, then forms,
then buttons. -/
def candidateVerbs (p : Page) (currentUrl : String) : List Verb :=
  p.anchors.filterMap (anchorVerb currentUrl) ++
  p.forms.enum.map (fun q => formVerb currentUrl q.1 q.2) ++
  p.buttons.filterMap buttonVerb

/-- The deduplication filter of `HTMLParser.parse`: keep a verb when its
name is not in the set of names already seen, first occurrence wins. -/
def dedupFirst : List Verb → List String → List Verb
  | [], _ => []
  | v :: vs, seen =>
    if seen.contains v.name then dedupFirst vs seen
    else v :: dedupFirst vs (v.name :: seen)

/-- Model of `HTMLParser.parse`: extract candidates, deduplicate by name,
truncate to the first 20 verbs. -/
def htmlParse (p : Page) (text : String) (currentUrl : String) : ParsedPage :=
  { verbs := (dedupFirst (candidateVerbs p currentUrl) []).take 20
    text := text }

/-! ## Tab state store (the per-record `StateManager` and
`validateTabName`) -/

/-- Character admitted by the tab-name pattern `[a-zA-Z0-9_-]`. -/
def isTabNameChar (c : Char) : Bool :=
  (65 ≤ c.toNat && c.toNat ≤ 90) || (97 ≤ c.toNat && c.toNat ≤ 122) ||
  (48 ≤ c.toNat && c.toNat ≤ 57) || c.toNat == 95 || c.toNat == 45

/-- Model of `validateTabName`'s pattern test
`TAB_NAME_PATTERN = ^[a-zA-Z0-9_-]{1,50}$`. -/
def validTabName (s : String) : Bool :=
  decide (1 ≤ s.data.length) && decide (s.data.length ≤ 50) &&
  s.data.all isTabNameChar

/-- The errors a store mutation can raise. -/
inductive StoreError where
  | validation (name : String)
  | notFound (name : String)
deriving DecidableEq

/-- The persisted store: one record per tab name (one JSON file per tab in
the tabs directory). -/
abbrev Store : Type := List (String × Tab)

/-- A partial tab update (`Partial<Tab>` with JS explicit-`undefined`
semantics): `none` = field absent from the update object, `some x` = field
present with value `x`, where for the optional tab fields `x` is itself an
option and `some none` means explicitly set to `undefined`. -/
structure TabPatch where
  current_url : Option String := none
  last_updated : Option Nat := none
  verb_cache : Option (Option (List (String × Verb))) := none
  verb_cache_expires : Option (Option Nat) := none
  execution_plan_cache : Option (Option (List (String × ExecutionPlan))) := none
deriving DecidableEq

/-- The JS merge `{...existing, ...updates}` followed by JSON
serialisation: a field present in the update wins even when its value is
`undefined`, and `undefined`-valued fields are dropped from the persisted
record. -/
def mergeTab (t : Tab) (p : TabPatch) : Tab :=
  { current_url := p.current_url.getD t.current_url
    last_updated := p.last_updated.getD t.last_updated
    verb_cache := p.verb_cache.getD t.verb_cache
    verb_cache_expires := p.verb_cache_expires.getD t.verb_cache_expires
    execution_plan_cache := p.execution_plan_cache.getD t.execution_plan_cache }

/-- Model of `StateManager.getTab`: a read failure is treated as absent. -/
def getTab (st : Store) (name : String) : Option Tab :=
  assocGet st name

/-- Model of `StateManager.setTab`: validate the name, then overwrite the
record. -/
def setTab (st : Store) (name : String) (tab : Tab) : Except StoreError Store :=
  if validTabName name then .ok (assocSet st name tab)
  else .error (.validation name)

/-- Model of `StateManager.updateTab`: read the record (no name
validation), fail when absent, else shallow-merge and write back. -/
def updateTab (st : Store) (name : String) (p : TabPatch) :
    Except StoreError Store :=
  match getTab st name with
  | none => .error (.notFound name)
  | some t => .ok (assocSet st name (mergeTab t p))

/-- Model of `StateManager.deleteTab`: unlink the record, ignoring a
failure when it is absent (no name validation, never an error). -/
def deleteTab (st : Store) (name : String) : Store :=
  assocRemove st name

/-! ## The tab command (`src/commands/tab.ts`, `createTabCommand`) -/

/-- What the Fetcher returns for a URL: plain text, markup (already
abstracted into a `Page`), and the fetched URL. -/
structure FetchResult where
  text : String
  html : Page
  url : String

/-- Outcome of the verb-discovery branch of the tab command (no verb
argument supplied): whether the Fetcher ran, the verb list shown, and the
tab update written (if any). -/
structure DiscoverResult where
  fetched : Bool
  verbs : List Verb
  update : Option TabPatch

/-- The verb cache written by the tab command: an object keyed by verb
name, built by `verbs.forEach(v => verbCache[v.name] = v)`. -/
def buildVerbCache (vs : List Verb) : List (String × Verb) :=
  vs.foldl (fun m v => assocSet m v.name v) []

/-- The verb-discovery branch of the tab command: reuse the cached verbs
when the cache is valid (`verb_cache_expires` present and in the future),
`verb_cache` is present and `--use-llm` was not passed; otherwise fetch the
page, extract verbs with the LLM parser (when forced and available) or the
HTML parser, and cache them for five minutes.  The Fetcher's would-be
result and the Planner's would-be verb list are explicit inputs. -/
def discoverVerbs (now : Nat) (tab : Tab) (useLlm llmAvailable : Bool)
    (llmVerbs : List Verb) (fr : FetchResult) : DiscoverResult :=
  let cacheValid := tab.verb_cache_expires.isSome &&
    decide (now < tab.verb_cache_expires.getD 0)
  if cacheValid && tab.verb_cache.isSome && !useLlm then
    { fetched := false
      verbs := assocValues (tab.verb_cache.getD [])
      update := none }
  else
    let verbs :=
      if useLlm && llmAvailable then llmVerbs
      else (htmlParse fr.html fr.text fr.url).verbs
    { fetched := true
      verbs := verbs
      update := some { verb_cache := some (some (buildVerbCache verbs))
                       verb_cache_expires := some (some (now + 5 * 60 * 1000)) } }

/-- A terminal outcome of the verb-execution branch of the tab command. -/
inductive ExecOutcome where
  | verbNotFound (verb : String)
  | subverbNotFound (child container : String)
  | containerList (subverbs : List Verb)
  | planFailed
  | navigated (targetUrl : String)
  | unsupported (method : PlanMethod)
  | resolveError
deriving DecidableEq

/-- Result of a dispatch on an execution plan: the outcome and the tab
updates written, in order. -/
structure DispatchResult where
  outcome : ExecOutcome
  updates : List TabPatch
deriving DecidableEq

/-- Result of the verb-execution branch: the outcome, the execution-plan
cache key consulted (when the plan-cache path was reached), and the tab
updates written, in order. -/
structure ExecResult where
  outcome : ExecOutcome
  planKey : Option String
  updates : List TabPatch

/-- JS truthiness of `v.subverbs && v.subverbs.length > 0`. -/
def jsTruthySubverbs : Option (List Verb) → Bool
  | none => false
  | some l => decide (0 < l.length)

/-- The update written by a completed navigation: replace `current_url` and
`last_updated` and explicitly clear the verb cache, its expiry, and the
execution-plan cache, all in the same update object. -/
def navPatch (url : String) (now : Nat) : TabPatch :=
  { current_url := some url
    last_updated := some now
    verb_cache := some none
    verb_cache_expires := some none
    execution_plan_cache := some none }

/-- Resolution of a plan's target URL before navigating: a target already
starting with `http://` or `https://` is used as-is; otherwise it is
resolved against the origin (scheme and host) of the tab's current URL, and
a parse failure of either URL is a terminal error. -/
def resolveTarget (currentUrl target : String) : Option String :=
  if strStartsWith target "http://" || strStartsWith target "https://" then
    some target
  else
    match parseAbsolute currentUrl with
    | none => none
    | some cur =>
      (urlResolve { scheme := cur.scheme, host := cur.host, rest := "/" } target).map
        JsURL.serialize

/-- The execute-dispatch of the tab command (the final `if` over the
resolved execution plan): a plan whose method is `navigate` and whose
`target_url` is truthy navigates (resolving the target and writing the
single clearing update), and every other plan is reported as an
unimplemented execution method. -/
def dispatchPlan (currentUrl : String) (plan : ExecutionPlan) (now : Nat) :
    DispatchResult :=
  if plan.method == .navigate && jsTruthyStr plan.target_url then
    match resolveTarget currentUrl (plan.target_url.getD "") with
    | none => { outcome := .resolveError, updates := [] }
    | some u => { outcome := .navigated u, updates := [navPatch u now] }
  else { outcome := .unsupported plan.method, updates := [] }

/-- The execution-plan cache key the source builds:
`` `${verb}@${tabData.current_url}` `` — note it interpolates the root
verb-name variable, not the composite `actualVerb`. -/
def planKeyOf (rootVerb : String) (tab : Tab) : String :=
  rootVerb ++ "@" ++ tab.current_url

/-- The update object of the plan-cache write: the existing cache (or a
fresh empty object) with the produced plan stored under the key. -/
def planCachePatch (tab : Tab) (key : String) (plan : ExecutionPlan) : TabPatch :=
  { execution_plan_cache :=
      some (some (assocSet (tab.execution_plan_cache.getD []) key plan)) }

/-- The execution core of the tab command, after the active verb has been
resolved: a `navigate` verb with a truthy target builds its plan
deterministically; otherwise the execution-plan cache is consulted under
`planKeyOf`, on a miss the Planner is asked (a `null` answer is terminal)
and a produced plan is written into the cache before the dispatch runs. -/
def execCore (tab : Tab) (rootVerb : String) (active : Verb)
    (planFn : Verb → Option ExecutionPlan) (now : Nat) : ExecResult :=
  if active.vtype == .navigate && jsTruthyStr active.target then
    let plan : ExecutionPlan :=
      { method := .navigate
        target_url := active.target
        description := "Navigate to " ++ active.target.getD "" }
    let d := dispatchPlan tab.current_url plan now
    { outcome := d.outcome, planKey := none, updates := d.updates }
  else
    match tab.execution_plan_cache.bind (fun m => assocGet m (planKeyOf rootVerb tab)) with
    | some plan =>
      let d := dispatchPlan tab.current_url plan now
      { outcome := d.outcome, planKey := some (planKeyOf rootVerb tab)
        updates := d.updates }
    | none =>
      match planFn active with
      | none =>
        { outcome := .planFailed, planKey := some (planKeyOf rootVerb tab)
          updates := [] }
      | some plan =>
        let d := dispatchPlan tab.current_url plan now
        { outcome := d.outcome, planKey := some (planKeyOf rootVerb tab)
          updates := planCachePatch tab (planKeyOf rootVerb tab) plan :: d.updates }

/-- The verb-execution branch of the tab command: look the root verb up in
the verb cache; a container (non-empty `subverbs`) invoked without
parameters lists its subverbs, invoked with a first parameter it selects
the child of that name as the active verb (the composite name
`root.child` is computed by the source but the plan-cache key keeps the
root name); a missing root or child is terminal; otherwise execution
proceeds on the active verb. -/
def executeVerb (tab : Tab) (verb : String) (params : List String)
    (planFn : Verb → Option ExecutionPlan) (now : Nat) : ExecResult :=
  match tab.verb_cache.bind (fun m => assocGet m verb) with
  | none => { outcome := .verbNotFound verb, planKey := none, updates := [] }
  | some cv =>
    if jsTruthySubverbs cv.subverbs then
      match params with
      | [] =>
        { outcome := .containerList (cv.subverbs.getD [])
          planKey := none, updates := [] }
      | child :: _ =>
        match (cv.subverbs.getD []).find? (fun sv => sv.name == child) with
        | some sv => execCore tab verb sv planFn now
        | none =>
          { outcome := .subverbNotFound child verb, planKey := none, updates := [] }
    else execCore tab verb cv planFn now

/-! ## Helper predicates and concrete scenario values used by the
proofs -/

/-- A character of a finished sanitised name: lower-case ASCII
alphanumeric or a hyphen. -/
def goodChar (c : Char) : Bool :=
  isLowerAlphaNum c || c == '-'

/-- No adjacent pair of characters of `l` both satisfy `p` — paired with
the head of the remainder. -/
def okPair (p : Char → Bool) (c : Char) (l : List Char) : Bool :=
  match l.head? with
  | none => true
  | some d => !(p c && p d)

/-- No two adjacent characters of `l` both satisfy `p`. -/
def noAdj (p : Char → Bool) : List Char → Bool
  | [] => true
  | c :: cs => okPair p c cs && noAdj p cs

/-- The head of a list is not a hyphen (vacuously true for the empty
list). -/
def headNotHyphen (l : List Char) : Bool :=
  match l.head? with
  | none => true
  | some c => !(c == '-')

/-- A concrete page with two qualifying anchors whose visible texts
sanitise to the same name but whose references differ. -/
def dupPage : Page :=
  { anchors := [{ href := some "/first", text := "Dup Name" },
                { href := some "/second", text := "Dup Name" }]
    forms := []
    buttons := [] }

/-- A concrete page whose only anchor has a qualifying visible text (three
characters) containing no alphanumeric character at all. -/
def hashPage : Page :=
  { anchors := [{ href := some "/x", text := "###" }]
    forms := []
    buttons := [] }

/-- A concrete container verb `menu` with one child `about` that has no
deterministic target. -/
def menuVerb : Verb :=
  Verb.mk "menu" "container" VerbType.action (some []) none
    (some [Verb.mk "about" "about page" VerbType.action (some []) none none])

/-- A concrete tab holding `menuVerb` in its verb cache. -/
def c1Tab : Tab :=
  { current_url := "https://x.example/", last_updated := 0
    verb_cache := some [("menu", menuVerb)] }

/-- A concrete Planner that always answers with an `action` plan. -/
def c1PlanFn : Verb → Option ExecutionPlan :=
  fun _ => some { method := PlanMethod.action, description := "do it" }

/-- A concrete non-deterministic verb for the C10 scenario. -/
def c10Verb : Verb :=
  Verb.mk "do-it" "an action" VerbType.action (some []) none none

/-- A concrete tab holding `c10Verb` and no plan cache. -/
def c10Tab : Tab :=
  { current_url := "https://x.example/", last_updated := 0
    verb_cache := some [("do-it", c10Verb)] }

/-- The concrete non-navigate plan the C10 Planner returns. -/
def c10Plan : ExecutionPlan :=
  { method := PlanMethod.form, target_url := none, description := "submit" }

/-- The concrete deterministic verb cached on the C3 tab. -/
def c3Verb : Verb :=
  Verb.mk "go" "go" VerbType.navigate (some []) (some "https://e.com/go") none

/-- A concrete tab with a valid verb cache expiring at time 100. -/
def c3Tab : Tab :=
  { current_url := "https://e.com/", last_updated := 0
    verb_cache := some [("go", c3Verb)]
    verb_cache_expires := some 100 }

/-- A concrete fetch result (never consulted in the reuse case). -/
def c3Fetch : FetchResult :=
  { text := "", html := { anchors := [], forms := [], buttons := [] }
    url := "https://e.com/" }

/-! ## Helper lemmas about the sanitisation pipeline -/

lemma goodChar_toNat {c : Char} (h : goodChar c = true) :
    (97 ≤ c.toNat ∧ c.toNat ≤ 122) ∨ (48 ≤ c.toNat ∧ c.toNat ≤ 57) ∨ c.toNat = 45 := by
  simp only [goodChar, isLowerAlphaNum, Bool.or_eq_true, Bool.and_eq_true,
    decide_eq_true_eq, beq_iff_eq] at h
  rcases h with (⟨h1, h2⟩ | ⟨h1, h2⟩) | h
  · exact Or.inl ⟨h1, h2⟩
  · exact Or.inr (Or.inl ⟨h1, h2⟩)
  · subst h; exact Or.inr (Or.inr rfl)

lemma goodChar_not_ws {c : Char} (h : goodChar c = true) : jsIsWs c = false := by
  have h2 := goodChar_toNat h
  rw [Bool.eq_false_iff]
  intro hw
  simp only [jsIsWs, Bool.or_eq_true, Bool.and_eq_true, beq_iff_eq,
    decide_eq_true_eq] at hw
  omega

lemma goodChar_keep {c : Char} (h : goodChar c = true) : keepChar c = true := by
  simp only [goodChar, Bool.or_eq_true] at h
  simp only [keepChar, Bool.or_eq_true]
  tauto

lemma charLower_eq_self {c : Char} (h : goodChar c = true) : charLower c = c := by
  have h2 := goodChar_toNat h
  have hcond : ¬ ((65 ≤ c.toNat && c.toNat ≤ 90) = true) := by
    simp only [Bool.and_eq_true, decide_eq_true_eq]
    omega
  simp [charLower, hcond]

lemma mem_collapseRuns {p : Char → Bool} {rep : Char} :
    ∀ (l : List Char) (b : Bool) (c : Char), c ∈ collapseRuns p rep b l →
      c = rep ∨ (p c = false ∧ c ∈ l) := by
  intro l
  induction l with
  | nil => intro b c h; simp [collapseRuns] at h
  | cons d ds ih =>
    intro b c h
    by_cases hp : p d = true
    · have h' : c ∈ collapseRuns p rep true ds ∨ c = rep := by
        cases b with
        | false =>
          simp only [collapseRuns, hp, if_true] at h
          rcases List.mem_cons.mp h with h | h
          · exact Or.inr h
          · exact Or.inl h
        | true =>
          simp only [collapseRuns, hp, if_true] at h
          exact Or.inl h
      rcases h' with h' | h'
      · rcases ih true c h' with h'' | ⟨h1, h2⟩
        · exact Or.inl h''
        · exact Or.inr ⟨h1, List.mem_cons_of_mem _ h2⟩
      · exact Or.inl h'
    · have hp' : p d = false := by
        rwa [Bool.not_eq_true] at hp
      simp only [collapseRuns, hp', Bool.false_eq_true, if_false] at h
      rcases List.mem_cons.mp h with h | h
      · subst h; exact Or.inr ⟨hp', List.mem_cons_self _ _⟩
      · rcases ih false c h with h'' | ⟨h1, h2⟩
        · exact Or.inl h''
        · exact Or.inr ⟨h1, List.mem_cons_of_mem _ h2⟩

lemma head?_collapseRuns_true {p : Char → Bool} {rep : Char} :
    ∀ (l : List Char) (c : Char), (collapseRuns p rep true l).head? = some c →
      p c = false := by
  intro l
  induction l with
  | nil => intro c h; simp [collapseRuns] at h
  | cons d ds ih =>
    intro c h
    by_cases hp : p d = true
    · simp only [collapseRuns, hp, if_true] at h
      exact ih c h
    · have hp' : p d = false := by rwa [Bool.not_eq_true] at hp
      simp only [collapseRuns, hp', Bool.false_eq_true, if_false,
        List.head?_cons, Option.some.injEq] at h
      subst h; exact hp'

lemma okPair_of_head {p : Char → Bool} {c : Char} {l l' : List Char}
    (hsub : ∀ d, l'.head? = some d → l.head? = some d)
    (h : okPair p c l = true) : okPair p c l' = true := by
  unfold okPair at h ⊢
  cases hl' : l'.head? with
  | none => simp
  | some d => rw [hsub d hl'] at h; exact h

lemma noAdj_collapseRuns {p : Char → Bool} {rep : Char} :
    ∀ (l : List Char) (b : Bool), noAdj p (collapseRuns p rep b l) = true := by
  intro l
  induction l with
  | nil => intro b; simp [collapseRuns, noAdj]
  | cons d ds ih =>
    intro b
    by_cases hp : p d = true
    · cases b with
      | true => simpa only [collapseRuns, hp, if_true] using ih true
      | false =>
        simp only [collapseRuns, hp, if_true]
        simp only [noAdj, Bool.and_eq_true]
        refine ⟨?_, ih true⟩
        unfold okPair
        cases hh : (collapseRuns p rep true ds).head? with
        | none => simp
        | some e =>
          have he := head?_collapseRuns_true ds e hh
          simp [he]
    · have hp' : p d = false := by rwa [Bool.not_eq_true] at hp
      simp only [collapseRuns, hp', Bool.false_eq_true, if_false]
      simp only [noAdj, Bool.and_eq_true]
      refine ⟨?_, ih false⟩
      unfold okPair
      cases hh : (collapseRuns p rep false ds).head? with
      | none => simp
      | some e => simp [hp']

lemma noAdj_tail {p : Char → Bool} {c : Char} {cs : List Char}
    (h : noAdj p (c :: cs) = true) : noAdj p cs = true := by
  simp only [noAdj, Bool.and_eq_true] at h
  exact h.2

lemma okPair_head {p : Char → Bool} {c : Char} {cs : List Char}
    (h : noAdj p (c :: cs) = true) : okPair p c cs = true := by
  simp only [noAdj, Bool.and_eq_true] at h
  exact h.1

lemma head?_take {l : List Char} {n : Nat} {c : Char}
    (h : (l.take n).head? = some c) : l.head? = some c := by
  cases l with
  | nil => simp at h
  | cons d ds =>
    cases n with
    | zero => simp at h
    | succ m => simpa using h

lemma noAdj_take {p : Char → Bool} :
    ∀ (l : List Char) (n : Nat), noAdj p l = true → noAdj p (l.take n) = true := by
  intro l
  induction l with
  | nil => intro n _; simp [noAdj]
  | cons c cs ih =>
    intro n h
    cases n with
    | zero => simp [noAdj]
    | succ m =>
      rw [List.take_succ_cons, noAdj, Bool.and_eq_true]
      exact ⟨okPair_of_head (fun d hd => head?_take hd) (okPair_head h),
        ih m (noAdj_tail h)⟩

lemma head?_dropTrailHyphen {l : List Char} {c : Char}
    (h : (dropTrailHyphen l).head? = some c) : l.head? = some c := by
  cases l with
  | nil => simp [dropTrailHyphen] at h
  | cons d ds =>
    cases ds with
    | nil =>
      by_cases hd : (d == '-') = true
      · simp [dropTrailHyphen, hd] at h
      · simp only [Bool.not_eq_true] at hd
        simp only [dropTrailHyphen, hd, Bool.false_eq_true, if_false] at h
        simpa using h
    | cons e es =>
      simp only [dropTrailHyphen] at h
      simpa using h

lemma mem_dropTrailHyphen {c : Char} :
    ∀ {l : List Char}, c ∈ dropTrailHyphen l → c ∈ l := by
  intro l
  induction l with
  | nil => intro h; simp [dropTrailHyphen] at h
  | cons d ds ih =>
    intro h
    cases ds with
    | nil =>
      by_cases hd : (d == '-') = true
      · simp [dropTrailHyphen, hd] at h
      · simp only [Bool.not_eq_true] at hd
        simp only [dropTrailHyphen, hd, Bool.false_eq_true, if_false] at h
        exact h
    | cons e es =>
      simp only [dropTrailHyphen] at h
      rcases List.mem_cons.mp h with h | h
      · subst h; exact List.mem_cons_self _ _
      · exact List.mem_cons_of_mem _ (ih h)

lemma length_dropTrailHyphen_le :
    ∀ (l : List Char), (dropTrailHyphen l).length ≤ l.length := by
  intro l
  induction l with
  | nil => simp [dropTrailHyphen]
  | cons d ds ih =>
    cases ds with
    | nil =>
      by_cases hd : (d == '-') = true
      · simp [dropTrailHyphen, hd]
      · simp only [Bool.not_eq_true] at hd
        simp [dropTrailHyphen, hd]
    | cons e es =>
      have h2 := ih
      simp only [List.length_cons] at h2 ⊢
      simp only [dropTrailHyphen, List.length_cons]
      omega

lemma noAdj_dropTrailHyphen {p : Char → Bool} :
    ∀ {l : List Char}, noAdj p l = true → noAdj p (dropTrailHyphen l) = true := by
  intro l
  induction l with
  | nil => intro h; exact h
  | cons d ds ih =>
    intro h
    cases ds with
    | nil =>
      by_cases hd : (d == '-') = true
      · simp [dropTrailHyphen, hd, noAdj]
      · simp only [Bool.not_eq_true] at hd
        simpa [dropTrailHyphen, hd] using h
    | cons e es =>
      simp only [dropTrailHyphen]
      simp only [noAdj, Bool.and_eq_true]
      refine ⟨?_, ih (noAdj_tail h)⟩
      exact okPair_of_head (fun f hf => head?_dropTrailHyphen hf) (okPair_head h)

lemma mem_dropLeadHyphen {c : Char} {l : List Char}
    (h : c ∈ dropLeadHyphen l) : c ∈ l := by
  cases l with
  | nil => simp [dropLeadHyphen] at h
  | cons d ds =>
    by_cases hd : (d == '-') = true
    · simp only [dropLeadHyphen, hd, if_true] at h
      exact List.mem_cons_of_mem _ h
    · simp only [Bool.not_eq_true] at hd
      simp only [dropLeadHyphen, hd, Bool.false_eq_true, if_false] at h
      exact h

lemma noAdj_dropLeadHyphen {p : Char → Bool} {l : List Char}
    (h : noAdj p l = true) : noAdj p (dropLeadHyphen l) = true := by
  cases l with
  | nil => exact h
  | cons d ds =>
    by_cases hd : (d == '-') = true
    · simp only [dropLeadHyphen, hd, if_true]
      exact noAdj_tail h
    · simp only [Bool.not_eq_true] at hd
      simpa only [dropLeadHyphen, hd, Bool.false_eq_true, if_false] using h

lemma headNotHyphen_dropLead {l : List Char}
    (h : noAdj (fun c => c == '-') l = true) :
    headNotHyphen (dropLeadHyphen l) = true := by
  cases l with
  | nil => rfl
  | cons c cs =>
    by_cases hc : (c == '-') = true
    · simp only [dropLeadHyphen, hc, if_true]
      have hok := okPair_head h
      unfold okPair at hok
      unfold headNotHyphen
      cases hh : cs.head? with
      | none => simp
      | some d =>
        rw [hh] at hok
        simp only [hc, Bool.true_and, Bool.not_eq_eq_eq_not, Bool.not_true] at hok
        simp [hok]
    · simp only [Bool.not_eq_true] at hc
      simp only [dropLeadHyphen, hc, Bool.false_eq_true, if_false]
      unfold headNotHyphen
      simp [hc]

lemma headNotHyphen_dropTrail {l : List Char}
    (h : headNotHyphen l = true) : headNotHyphen (dropTrailHyphen l) = true := by
  unfold headNotHyphen at h ⊢
  cases hh : (dropTrailHyphen l).head? with
  | none => simp
  | some c => rw [head?_dropTrailHyphen hh] at h; exact h

lemma headNotHyphen_take {l : List Char} {n : Nat}
    (h : headNotHyphen l = true) : headNotHyphen (l.take n) = true := by
  unfold headNotHyphen at h ⊢
  cases hh : (l.take n).head? with
  | none => simp
  | some c => rw [head?_take hh] at h; exact h

lemma dropLeadHyphen_eq_self {l : List Char}
    (h : headNotHyphen l = true) : dropLeadHyphen l = l := by
  cases l with
  | nil => rfl
  | cons c cs =>
    unfold headNotHyphen at h
    simp only [List.head?_cons, Bool.not_eq_eq_eq_not, Bool.not_true] at h
    simp [dropLeadHyphen, h]

lemma dropTrailHyphen_eq_self :
    ∀ {l : List Char}, l.getLast? ≠ some '-' → dropTrailHyphen l = l := by
  intro l
  induction l with
  | nil => intro _; rfl
  | cons c cs ih =>
    intro h
    cases cs with
    | nil =>
      simp only [List.getLast?_singleton, ne_eq, Option.some.injEq] at h
      have hc : (c == '-') = false := by simpa using h
      simp [dropTrailHyphen, hc]
    | cons d ds =>
      rw [List.getLast?_cons_cons] at h
      simp only [dropTrailHyphen]
      rw [ih h]

lemma map_charLower_eq_self {l : List Char}
    (h : ∀ c ∈ l, goodChar c = true) : l.map charLower = l := by
  induction l with
  | nil => rfl
  | cons c cs ih =>
    rw [List.map_cons, charLower_eq_self (h c (List.mem_cons_self _ _)),
      ih (fun d hd => h d (List.mem_cons_of_mem _ hd))]

lemma collapseRuns_eq_self_of_not {p : Char → Bool} {rep : Char} :
    ∀ (l : List Char) (b : Bool), (∀ c ∈ l, p c = false) →
      collapseRuns p rep b l = l := by
  intro l
  induction l with
  | nil => intro b _; rfl
  | cons c cs ih =>
    intro b h
    have hc := h c (List.mem_cons_self _ _)
    simp only [collapseRuns, hc, Bool.false_eq_true, if_false]
    rw [ih false (fun d hd => h d (List.mem_cons_of_mem _ hd))]

lemma collapseRuns_eq_self_noAdj {p : Char → Bool} {rep : Char}
    (hrep : ∀ c, p c = true → c = rep) :
    ∀ (l : List Char), noAdj p l = true →
      collapseRuns p rep false l = l ∧
      ((∀ c, l.head? = some c → p c = false) → collapseRuns p rep true l = l) := by
  intro l
  induction l with
  | nil => intro _; exact ⟨rfl, fun _ => rfl⟩
  | cons c cs ih =>
    intro h
    have ihcs := ih (noAdj_tail h)
    constructor
    · by_cases hp : p c = true
      · have hc := hrep c hp
        simp only [collapseRuns, hp, if_true]
        have hhead : ∀ d, cs.head? = some d → p d = false := by
          intro d hd
          have hok := okPair_head h
          unfold okPair at hok
          rw [hd] at hok
          simpa [hp] using hok
        rw [ihcs.2 hhead, ← hc]
        simp
      · have hp' : p c = false := by rwa [Bool.not_eq_true] at hp
        simp only [collapseRuns, hp', Bool.false_eq_true, if_false]
        rw [ihcs.1]
    · intro hhead
      have hc : p c = false := hhead c List.head?_cons
      simp only [collapseRuns, hc, Bool.false_eq_true, if_false]
      rw [ihcs.1]

lemma sanitize_chars :
    ∀ (l : List Char) (c : Char), c ∈ sanitizeList l → goodChar c = true := by
  intro l c h
  unfold sanitizeList at h
  have h1 := List.Sublist.mem h (List.take_sublist _ _)
  have h2 := mem_dropTrailHyphen h1
  have h3 := mem_dropLeadHyphen h2
  rcases mem_collapseRuns _ _ _ h3 with rfl | ⟨hnh, h4⟩
  · decide
  rcases mem_collapseRuns _ _ _ h4 with rfl | ⟨hnw, h5⟩
  · decide
  have h6 := (List.mem_filter.mp h5).2
  simp only [keepChar, Bool.or_eq_true] at h6
  simp only [goodChar, Bool.or_eq_true]
  rcases h6 with (h6 | h6) | h6
  · exact Or.inl h6
  · rw [h6] at hnw; exact absurd hnw (by simp)
  · exact Or.inr h6

lemma sanitize_length_le (l : List Char) : (sanitizeList l).length ≤ 50 := by
  unfold sanitizeList
  exact List.length_take_le _ _

lemma sanitize_noAdj (l : List Char) :
    noAdj (fun c => c == '-') (sanitizeList l) = true := by
  unfold sanitizeList
  exact noAdj_take _ _ (noAdj_dropTrailHyphen (noAdj_dropLeadHyphen
    (noAdj_collapseRuns _ _)))

lemma sanitize_headNot (l : List Char) :
    headNotHyphen (sanitizeList l) = true := by
  unfold sanitizeList
  exact headNotHyphen_take (headNotHyphen_dropTrail (headNotHyphen_dropLead
    (noAdj_collapseRuns _ _)))

lemma sanitizeList_sanitizeList (l : List Char) :
    sanitizeList (sanitizeList l) = dropTrailHyphen (sanitizeList l) := by
  have hchars := sanitize_chars l
  have hlen := sanitize_length_le l
  have hnoadj := sanitize_noAdj l
  have hhead := sanitize_headNot l
  have hnw : ∀ c ∈ sanitizeList l, jsIsWs c = false :=
    fun c hc => goodChar_not_ws (hchars c hc)
  show (dropTrailHyphen (dropLeadHyphen
    (collapseRuns (fun c => c == '-') '-' false
      (collapseRuns jsIsWs '-' false
        (((sanitizeList l).map charLower).filter keepChar))))).take 50 =
    dropTrailHyphen (sanitizeList l)
  rw [map_charLower_eq_self hchars,
    List.filter_eq_self.mpr (fun c hc => goodChar_keep (hchars c hc)),
    collapseRuns_eq_self_of_not _ false hnw,
    (collapseRuns_eq_self_noAdj (fun c hc => by simpa using hc) _ hnoadj).1,
    dropLeadHyphen_eq_self hhead,
    List.take_of_length_le (le_trans (length_dropTrailHyphen_le _) hlen)]

lemma sanitizeVerbName_sanitizeVerbName (s : String) :
    sanitizeVerbName (sanitizeVerbName s) =
      ⟨dropTrailHyphen (sanitizeVerbName s).data⟩ := by
  show (⟨sanitizeList (sanitizeList s.data)⟩ : String) =
    (⟨dropTrailHyphen (sanitizeList s.data)⟩ : String)
  rw [sanitizeList_sanitizeList]

/-! ## Claim C4 -/

/-- C4 counterexample: `sanitizeVerbName` is not idempotent on all inputs.
On the 51-character input of 49 `a`s, a space and a `b`, the space becomes
a hyphen at index 49, truncation to 50 characters (which runs after hyphen
trimming) leaves that trailing hyphen, and a second application trims it. -/
theorem claim_C4_counterexample :
    sanitizeVerbName (sanitizeVerbName
        "aaaaaaaaaaaaaaaaaaaaaaaaaaaaaaaaaaaaaaaaaaaaaaaaa b") ≠
      sanitizeVerbName "aaaaaaaaaaaaaaaaaaaaaaaaaaaaaaaaaaaaaaaaaaaaaaaaa b" := by
  decide

/-- C4 (amended): the sanitisation function is idempotent on every input
whose sanitised form does not end in a hyphen; equivalently, only the final
truncation step can break idempotence, by cutting the string right after a
hyphen, and a second application then merely removes that trailing
hyphen. -/
theorem claim_C4_sanitize_idempotent (x : String)
    (h : (sanitizeVerbName x).data.getLast? ≠ some '-') :
    sanitizeVerbName (sanitizeVerbName x) = sanitizeVerbName x := by
  rw [sanitizeVerbName_sanitizeVerbName, dropTrailHyphen_eq_self h]

/-- C4 witness: the amended idempotence theorem applied at the concrete
input `"hello world"`. -/
theorem claim_C4_witness :
    sanitizeVerbName (sanitizeVerbName "hello world") =
      sanitizeVerbName "hello world" :=
  claim_C4_sanitize_idempotent "hello world" (by decide)

/-! ## Helper lemmas about extraction, deduplication and the cap -/

lemma dedupFirst_sublist :
    ∀ (l : List Verb) (seen : List String), (dedupFirst l seen).Sublist l := by
  intro l
  induction l with
  | nil => intro seen; simp [dedupFirst]
  | cons v vs ih =>
    intro seen
    by_cases hv : seen.contains v.name = true
    · simp only [dedupFirst, hv, if_true]
      exact List.Sublist.cons _ (ih seen)
    · have hv' : seen.contains v.name = false := by rwa [Bool.not_eq_true] at hv
      simp only [dedupFirst, hv', Bool.false_eq_true, if_false]
      exact List.Sublist.cons₂ _ (ih (v.name :: seen))

lemma dedupFirst_not_mem_seen :
    ∀ (l : List Verb) (seen : List String) (v : Verb),
      v ∈ dedupFirst l seen → seen.contains v.name = false := by
  intro l
  induction l with
  | nil => intro seen v h; simp [dedupFirst] at h
  | cons w ws ih =>
    intro seen v h
    by_cases hw : seen.contains w.name = true
    · simp only [dedupFirst, hw, if_true] at h
      exact ih seen v h
    · have hw' : seen.contains w.name = false := by rwa [Bool.not_eq_true] at hw
      simp only [dedupFirst, hw', Bool.false_eq_true, if_false] at h
      rcases List.mem_cons.mp h with h | h
      · subst h; exact hw'
      · have h2 := ih _ v h
        simp only [List.contains_cons, Bool.or_eq_false_iff] at h2
        exact h2.2

lemma dedupFirst_nodup_names :
    ∀ (l : List Verb) (seen : List String),
      ((dedupFirst l seen).map Verb.name).Nodup := by
  intro l
  induction l with
  | nil => intro seen; simp [dedupFirst]
  | cons w ws ih =>
    intro seen
    by_cases hw : seen.contains w.name = true
    · simp only [dedupFirst, hw, if_true]
      exact ih seen
    · have hw' : seen.contains w.name = false := by rwa [Bool.not_eq_true] at hw
      simp only [dedupFirst, hw', Bool.false_eq_true, if_false, List.map_cons]
      rw [List.nodup_cons]
      refine ⟨?_, ih (w.name :: seen)⟩
      intro hmem
      rcases List.mem_map.mp hmem with ⟨v, hv, hname⟩
      have h2 := dedupFirst_not_mem_seen _ _ v hv
      simp only [List.contains_cons, Bool.or_eq_false_iff] at h2
      rw [hname] at h2
      simp at h2

lemma dedupFirst_find? :
    ∀ (l : List Verb) (seen : List String) (v : Verb),
      v ∈ dedupFirst l seen →
      l.find? (fun w => w.name == v.name) = some v := by
  intro l
  induction l with
  | nil => intro seen v h; simp [dedupFirst] at h
  | cons w ws ih =>
    intro seen v h
    by_cases hw : seen.contains w.name = true
    · simp only [dedupFirst, hw, if_true] at h
      have hv := dedupFirst_not_mem_seen _ _ v h
      have hne : ¬ ((fun x => x.name == v.name) w = true) := by
        simp only [beq_iff_eq]
        intro heq
        rw [heq, hv] at hw
        exact Bool.false_ne_true hw
      rw [@List.find?_cons_of_neg Verb (fun x => x.name == v.name) w ws hne]
      exact ih seen v h
    · have hw' : seen.contains w.name = false := by rwa [Bool.not_eq_true] at hw
      simp only [dedupFirst, hw', Bool.false_eq_true, if_false] at h
      rcases List.mem_cons.mp h with h | h
      · subst h
        exact @List.find?_cons_of_pos Verb (fun x => x.name == v.name) v ws
          (beq_self_eq_true _)
      · have hvv := dedupFirst_not_mem_seen _ _ v h
        have hne : ¬ ((fun x => x.name == v.name) w = true) := by
          simp only [beq_iff_eq]
          intro heq
          rw [heq] at hvv
          simp [List.contains_cons] at hvv
        rw [@List.find?_cons_of_neg Verb (fun x => x.name == v.name) w ws hne]
        exact ih _ v h

lemma dedupFirst_name_covered :
    ∀ (l : List Verb) (seen : List String) (w : Verb), w ∈ l →
      seen.contains w.name = true ∨
        ∃ v ∈ dedupFirst l seen, v.name = w.name := by
  intro l
  induction l with
  | nil => intro seen w h; simp at h
  | cons u us ih =>
    intro seen w h
    by_cases hu : seen.contains u.name = true
    · simp only [dedupFirst, hu, if_true]
      rcases List.mem_cons.mp h with h | h
      · rw [h]; exact Or.inl hu
      · exact ih seen w h
    · have hu' : seen.contains u.name = false := by rwa [Bool.not_eq_true] at hu
      simp only [dedupFirst, hu', Bool.false_eq_true, if_false]
      rcases List.mem_cons.mp h with h | h
      · rw [h]
        exact Or.inr ⟨u, List.mem_cons_self _ _, rfl⟩
      · rcases ih (u.name :: seen) w h with hcase | ⟨v, hv1, hv2⟩
        · simp only [List.contains_cons, Bool.or_eq_true] at hcase
          rcases hcase with hcase | hcase
          · rw [beq_iff_eq] at hcase
            exact Or.inr ⟨u, List.mem_cons_self _ _, hcase.symm⟩
          · exact Or.inl hcase
        · exact Or.inr ⟨v, List.mem_cons_of_mem _ hv1, hv2⟩

lemma anchorVerb_name {url : String} {a : Anchor} {v : Verb}
    (h : anchorVerb url a = some v) : v.name = sanitizeVerbName (jsTrim a.text) := by
  unfold anchorVerb at h
  cases ha : a.href with
  | none => rw [ha] at h; exact absurd h (by simp)
  | some href =>
    rw [ha] at h
    simp only at h
    split at h
    · exact absurd h (by simp)
    · split at h
      · exact absurd h (by simp)
      · rw [← Option.some.inj h]
        rfl

lemma formVerb_name (url : String) (i : Nat) (f : FormEl) :
    ∃ s, (formVerb url i f).name = sanitizeVerbName s := by
  exact ⟨_, rfl⟩

lemma buttonVerb_name {b : ButtonEl} {v : Verb}
    (h : buttonVerb b = some v) : v.name = sanitizeVerbName (jsTrim b.text) := by
  unfold buttonVerb at h
  simp only at h
  split at h
  · exact absurd h (by simp)
  · split at h
    · rw [← Option.some.inj h]
      rfl
    · exact absurd h (by simp)

lemma candidate_name_sanitized {p : Page} {url : String} {v : Verb}
    (h : v ∈ candidateVerbs p url) : ∃ s, v.name = sanitizeVerbName s := by
  unfold candidateVerbs at h
  rcases List.mem_append.mp h with h | h
  · rcases List.mem_append.mp h with h | h
    · rcases List.mem_filterMap.mp h with ⟨a, _, ha⟩
      exact ⟨_, anchorVerb_name ha⟩
    · rcases List.mem_map.mp h with ⟨q, _, hq⟩
      rcases formVerb_name url q.1 q.2 with ⟨s, hs⟩
      exact ⟨s, by rw [← hq]; exact hs⟩
  · rcases List.mem_filterMap.mp h with ⟨b, _, hb⟩
    exact ⟨_, buttonVerb_name hb⟩

lemma htmlParse_mem_candidates {p : Page} {text url : String} {v : Verb}
    (h : v ∈ (htmlParse p text url).verbs) : v ∈ candidateVerbs p url := by
  unfold htmlParse at h
  simp only at h
  exact List.Sublist.mem (List.Sublist.mem h (List.take_sublist _ _))
    (dedupFirst_sublist _ _)

/-! ## Claim C6 -/

/-- C6: the extractor's final verb list is the candidate list deduplicated
by name — first occurrence wins (`find?` returns exactly the surviving
verb, so it carries the first candidate's target), survivors keep the
original extraction order (sublist), names are pairwise distinct, every
candidate name survives — truncated to the first 20 verbs after
deduplication. -/
theorem claim_C6_dedup_and_cap (p : Page) (text url : String) :
    (htmlParse p text url).verbs =
        (dedupFirst (candidateVerbs p url) []).take 20 ∧
      (dedupFirst (candidateVerbs p url) []).Sublist (candidateVerbs p url) ∧
      ((dedupFirst (candidateVerbs p url) []).map Verb.name).Nodup ∧
      (∀ v ∈ dedupFirst (candidateVerbs p url) [],
        (candidateVerbs p url).find? (fun w => w.name == v.name) = some v) ∧
      (∀ w ∈ candidateVerbs p url,
        ∃ v ∈ dedupFirst (candidateVerbs p url) [], v.name = w.name) ∧
      ((htmlParse p text url).verbs.length ≤ 20 ∧
        (20 ≤ (dedupFirst (candidateVerbs p url) []).length →
          (htmlParse p text url).verbs.length = 20)) := by
  refine ⟨rfl, dedupFirst_sublist _ _, dedupFirst_nodup_names _ _,
    fun v hv => dedupFirst_find? _ _ v hv, fun w hw => ?_,
    List.length_take_le _ _, fun hlen => ?_⟩
  · rcases dedupFirst_name_covered _ [] w hw with hcase | hcase
    · simp at hcase
    · exact hcase
  · show ((dedupFirst (candidateVerbs p url) []).take 20).length = 20
    rw [List.length_take]
    omega

/-- C6 witness: on `dupPage` the first-wins property at the surviving verb:
the deduplicated candidate named `dup-name` is the first candidate, the one
carrying target `https://e.com/first`. -/
theorem claim_C6_witness :
    (candidateVerbs dupPage "https://e.com").find?
        (fun w => w.name == "dup-name") = some (Verb.mk "dup-name"
          "Navigate to: Dup Name" VerbType.navigate (some [])
          (some "https://e.com/first") none) :=
  (claim_C6_dedup_and_cap dupPage "" "https://e.com").2.2.2.1
    (Verb.mk "dup-name" "Navigate to: Dup Name" VerbType.navigate (some [])
      (some "https://e.com/first") none)
    (by decide)

/-! ## Claim C9 -/

/-- C9: every verb name the structural extractor outputs consists only of
lower-case letters, digits and hyphens and is at most 50 characters long,
but it can be empty: on `hashPage`, whose anchor text `###` is in the
length window `[3,100]` yet sanitises to the empty string, the extractor
admits a navigate verb named `""` into its output, and the tab command's
verb cache built from that output carries the key `""`. -/
theorem claim_C9_names_charset :
    (∀ (p : Page) (text url : String) (v : Verb),
        v ∈ (htmlParse p text url).verbs →
        (∀ c ∈ v.name.data, isLowerAlphaNum c = true ∨ c = '-') ∧
          v.name.data.length ≤ 50) ∧
      (htmlParse hashPage "" "https://e.com").verbs =
        [Verb.mk "" "Navigate to: ###" VerbType.navigate (some [])
          (some "https://e.com/x") none] ∧
      buildVerbCache (htmlParse hashPage "" "https://e.com").verbs =
        [("", Verb.mk "" "Navigate to: ###" VerbType.navigate (some [])
          (some "https://e.com/x") none)] := by
  refine ⟨?_, by decide, by decide⟩
  intro p text url v hv
  have hc := htmlParse_mem_candidates hv
  rcases candidate_name_sanitized hc with ⟨s, hs⟩
  constructor
  · intro c hcc
    rw [hs] at hcc
    have hgood := sanitize_chars s.data c hcc
    simp only [goodChar, Bool.or_eq_true, beq_iff_eq] at hgood
    exact hgood
  · rw [hs]
    exact sanitize_length_le s.data

/-- C9 witness: the name invariant applied to the concrete empty-named
verb extracted from `hashPage`. -/
theorem claim_C9_witness :
    (∀ c ∈ (Verb.mk "" "Navigate to: ###" VerbType.navigate (some [])
        (some "https://e.com/x") none).name.data,
      isLowerAlphaNum c = true ∨ c = '-') ∧
    (Verb.mk "" "Navigate to: ###" VerbType.navigate (some [])
        (some "https://e.com/x") none).name.data.length ≤ 50 :=
  claim_C9_names_charset.1 hashPage "" "https://e.com" _ (by decide)

/-! ## Claim C7 -/

/-- C7: anchor references are resolved against the page URL by standard URL
resolution — a path-absolute reference keeps the base origin, a
scheme-relative reference inherits the base scheme, an absolute reference
is unchanged whatever the base — and a reference that fails to resolve as
a URL (including the case of an unparseable base) is passed through
unchanged rather than discarded. -/
theorem claim_C7_url_resolution :
    resolveUrl "/relative" "https://example.com/page" =
        "https://example.com/relative" ∧
      resolveUrl "//cdn.example.com/page" "https://example.com" =
        "https://cdn.example.com/page" ∧
      (∀ base, resolveUrl "https://external.com/page" base =
        "https://external.com/page") ∧
      (∀ href base, parseAbsolute base = none → resolveUrl href base = href) ∧
      (∀ href base b, parseAbsolute base = some b → urlResolve b href = none →
        resolveUrl href base = href) := by
  refine ⟨by decide, by decide, ?_, ?_, ?_⟩
  · intro base
    unfold resolveUrl
    cases hb : parseAbsolute base with
    | none => rfl
    | some b =>
      have h1 : urlResolve b "https://external.com/page" =
          some ⟨"https", "external.com", "/page"⟩ := by
        unfold urlResolve
        rw [show parseAbsolute "https://external.com/page" =
          some ⟨"https", "external.com", "/page"⟩ from by decide]
      dsimp only
      rw [h1]
      decide
  · intro href base h
    unfold resolveUrl
    rw [h]
  · intro href base b h1 h2
    unfold resolveUrl
    rw [h1]
    dsimp only
    rw [h2]

/-- C7 witness: the pass-through branch applied at a concrete unparseable
base. -/
theorem claim_C7_witness : resolveUrl "foo" "notaurl" = "foo" :=
  claim_C7_url_resolution.2.2.2.1 "foo" "notaurl" (by decide)

/-! ## Claim C5 -/

/-- C5 counterexample: not every store mutation validates the tab name.
On the invalid name `test@tab` the delete mutation succeeds silently
(no validation error) and the update mutation fails with a not-found
error, not a validation error. -/
theorem claim_C5_counterexample :
    validTabName "test@tab" = false ∧
      deleteTab [] "test@tab" = [] ∧
      updateTab [] "test@tab" {} = Except.error (StoreError.notFound "test@tab") :=
  ⟨by decide, rfl, rfl⟩

/-- C5 (amended): only `setTab` validates the tab name, and it accepts and
rejects exactly the listed examples; `updateTab` never validates — on a
name holding no record (as any invalid name, since only `setTab` admits
records) it fails with a not-found error — and `deleteTab` never validates
and never fails, leaving the store unchanged when the name holds no
record. -/
theorem claim_C5_validation (st : Store) (name : String) (tab : Tab)
    (p : TabPatch) :
    (validTabName "a" = true ∧ validTabName "test-tab" = true ∧
      validTabName "test_tab" = true ∧ validTabName "test123" = true) ∧
    (validTabName "" = false ∧ validTabName "test tab" = false ∧
      validTabName "test/tab" = false ∧ validTabName "test.tab" = false ∧
      validTabName "aaaaaaaaaaaaaaaaaaaaaaaaaaaaaaaaaaaaaaaaaaaaaaaaaaa" = false ∧
      validTabName "test@tab" = false) ∧
    (validTabName name = false →
      setTab st name tab = Except.error (StoreError.validation name)) ∧
    (getTab st name = none →
      updateTab st name p = Except.error (StoreError.notFound name) ∧
        deleteTab st name = st) := by
  refine ⟨⟨by decide, by decide, by decide, by decide⟩,
    ⟨by decide, by decide, by decide, by decide, by decide, by decide⟩,
    ?_, ?_⟩
  · intro h
    unfold setTab
    simp [h]
  · intro h
    constructor
    · unfold updateTab
      rw [h]
    · unfold deleteTab assocRemove
      apply List.filter_eq_self.mpr
      intro a ha
      have hfind : st.find? (fun q => q.1 == name) = none := by
        unfold getTab assocGet at h
        exact Option.map_eq_none'.mp h
      have hne := List.find?_eq_none.mp hfind a ha
      simp only [Bool.not_eq_true] at hne
      simp [hne]

/-- C5 witness: the amended validation behaviour at the concrete invalid
name `test@tab` against the empty store. -/
theorem claim_C5_witness :
    setTab [] "test@tab" { current_url := "https://e.com", last_updated := 0 } =
        Except.error (StoreError.validation "test@tab") ∧
      updateTab [] "test@tab" {} = Except.error (StoreError.notFound "test@tab") ∧
      deleteTab [] "test@tab" = ([] : Store) := by
  have h := claim_C5_validation []  "test@tab"
    { current_url := "https://e.com", last_updated := 0 } {}
  exact ⟨h.2.2.1 (by decide), (h.2.2.2 rfl).1, (h.2.2.2 rfl).2⟩

/-! ## Helper lemmas about the execute dispatch -/

lemma dispatchPlan_navigated {currentUrl : String} {plan : ExecutionPlan}
    {now : Nat} {u : String}
    (h : (dispatchPlan currentUrl plan now).outcome = ExecOutcome.navigated u) :
    dispatchPlan currentUrl plan now =
        { outcome := ExecOutcome.navigated u, updates := [navPatch u now] } ∧
      resolveTarget currentUrl (plan.target_url.getD "") = some u := by
  unfold dispatchPlan at h ⊢
  by_cases hc : (plan.method == PlanMethod.navigate && jsTruthyStr plan.target_url) = true
  · simp only [hc, if_true] at h ⊢
    cases hr : resolveTarget currentUrl (plan.target_url.getD "") with
    | none =>
      rw [hr] at h
      exact absurd h (by simp)
    | some w =>
      rw [hr] at h
      have h2 : ExecOutcome.navigated w = ExecOutcome.navigated u := h
      have h3 : w = u := by injection h2
      subst h3
      exact ⟨rfl, rfl⟩
  · have hc' : (plan.method == PlanMethod.navigate && jsTruthyStr plan.target_url) = false := by
      rwa [Bool.not_eq_true] at hc
    simp only [hc', Bool.false_eq_true, if_false] at h
    exact absurd h (by simp)

/-! ## Claim C2 -/

/-- C2: a completed Execute-Navigate transition writes exactly one tab
update; that update sets `current_url` to the resolved target and
`last_updated` to the current time, and merging it into any persisted tab
leaves a record with no `verb_cache`, no `verb_cache_expires` and no
`execution_plan_cache`. -/
theorem claim_C2_navigate_update (currentUrl : String) (plan : ExecutionPlan)
    (now : Nat) (u : String)
    (h : (dispatchPlan currentUrl plan now).outcome = ExecOutcome.navigated u) :
    (dispatchPlan currentUrl plan now).updates = [navPatch u now] ∧
      resolveTarget currentUrl (plan.target_url.getD "") = some u ∧
      ∀ t : Tab, mergeTab t (navPatch u now) =
        { current_url := u, last_updated := now, verb_cache := none,
          verb_cache_expires := none, execution_plan_cache := none } := by
  refine ⟨?_, (dispatchPlan_navigated h).2, fun t => rfl⟩
  rw [(dispatchPlan_navigated h).1]

/-- C2 witness: the navigate update at a concrete plan (relative target
`/about` on tab URL `https://x.example/`) merged into a concrete tab that
carries all three caches. -/
theorem claim_C2_witness :
    (dispatchPlan "https://x.example/"
        { method := PlanMethod.navigate, target_url := some "/about",
          description := "d" } 7).updates =
        [navPatch "https://x.example/about" 7] ∧
      mergeTab
        { current_url := "https://x.example/", last_updated := 0,
          verb_cache := some [], verb_cache_expires := some 99,
          execution_plan_cache := some [] }
        (navPatch "https://x.example/about" 7) =
        { current_url := "https://x.example/about", last_updated := 7 } := by
  have h := claim_C2_navigate_update "https://x.example/"
    { method := PlanMethod.navigate, target_url := some "/about",
      description := "d" } 7 "https://x.example/about" (by decide)
  exact ⟨h.1, h.2.2 _⟩

/-! ## Claim C8 -/

/-- C8 counterexample: a plan whose method is `navigate` but whose
`target_url` is absent does not perform Execute-Navigate; it falls into
the unimplemented-execution-method failure, so "method is navigate implies
Execute-Navigate" is false. -/
theorem claim_C8_counterexample :
    dispatchPlan "https://x.example/"
        { method := PlanMethod.navigate, target_url := none,
          description := "d" } 0 =
      { outcome := ExecOutcome.unsupported PlanMethod.navigate,
        updates := [] } := by
  decide

/-- C8 (amended): at the dispatch point, a plan whose method is not
`navigate`, or whose method is `navigate` but whose `target_url` is absent
or empty, terminates as the unimplemented-execution-method failure; a
`navigate` plan with a truthy `target_url` performs Execute-Navigate when
its target resolves, and otherwise terminates as a URL-resolution error.
No other outcome exists at this dispatch point. -/
theorem claim_C8_dispatch (currentUrl : String) (plan : ExecutionPlan)
    (now : Nat) :
    ((plan.method ≠ PlanMethod.navigate ∨ jsTruthyStr plan.target_url = false) →
      dispatchPlan currentUrl plan now =
        { outcome := ExecOutcome.unsupported plan.method, updates := [] }) ∧
    (plan.method = PlanMethod.navigate → jsTruthyStr plan.target_url = true →
      (∃ u, resolveTarget currentUrl (plan.target_url.getD "") = some u ∧
          dispatchPlan currentUrl plan now =
            { outcome := ExecOutcome.navigated u,
              updates := [navPatch u now] }) ∨
        (resolveTarget currentUrl (plan.target_url.getD "") = none ∧
          dispatchPlan currentUrl plan now =
            { outcome := ExecOutcome.resolveError, updates := [] })) := by
  constructor
  · intro h
    have hc : (plan.method == PlanMethod.navigate && jsTruthyStr plan.target_url) = false := by
      rcases h with h | h
      · have : (plan.method == PlanMethod.navigate) = false := by
          simp only [beq_eq_false_iff_ne]
          exact h
        simp [this]
      · simp [h]
    unfold dispatchPlan
    simp only [hc, Bool.false_eq_true, if_false]
  · intro h1 h2
    have hc : (plan.method == PlanMethod.navigate && jsTruthyStr plan.target_url) = true := by
      simp [h1, h2]
    unfold dispatchPlan
    simp only [hc, if_true]
    cases hr : resolveTarget currentUrl (plan.target_url.getD "") with
    | none => exact Or.inr ⟨rfl, rfl⟩
    | some u => exact Or.inl ⟨u, rfl, rfl⟩

/-- C8 witness: the unimplemented-method failure at a concrete
`form`-method plan. -/
theorem claim_C8_witness :
    dispatchPlan "https://x.example/"
        { method := PlanMethod.form, target_url := some "/post",
          description := "d" } 0 =
      { outcome := ExecOutcome.unsupported PlanMethod.form, updates := [] } :=
  (claim_C8_dispatch "https://x.example/"
    { method := PlanMethod.form, target_url := some "/post",
      description := "d" } 0).1 (Or.inl (by decide))

/-! ## Helper lemmas about the execution core -/

lemma dispatchPlan_updates_shape (c : String) (p : ExecutionPlan) (n : Nat) :
    (dispatchPlan c p n).updates = [] ∨
      ∃ u, (dispatchPlan c p n).updates = [navPatch u n] := by
  unfold dispatchPlan
  by_cases hc : (p.method == PlanMethod.navigate && jsTruthyStr p.target_url) = true
  · simp only [hc, if_true]
    cases hr : resolveTarget c (p.target_url.getD "") with
    | none => exact Or.inl rfl
    | some u => exact Or.inr ⟨u, rfl⟩
  · have hc' : (p.method == PlanMethod.navigate && jsTruthyStr p.target_url) = false := by
      rwa [Bool.not_eq_true] at hc
    simp only [hc', Bool.false_eq_true, if_false]
    exact Or.inl trivial

lemma dispatchPlan_mem_updates {c : String} {p : ExecutionPlan} {n : Nat}
    {patch : TabPatch} (h : patch ∈ (dispatchPlan c p n).updates) :
    patch.execution_plan_cache = some none := by
  rcases dispatchPlan_updates_shape c p n with hs | ⟨u, hs⟩
  · rw [hs] at h; simp at h
  · rw [hs] at h
    rw [List.mem_singleton.mp h]
    rfl

lemma dispatchPlan_not_navigate {c : String} {p : ExecutionPlan} {n : Nat}
    (h : (p.method == PlanMethod.navigate && jsTruthyStr p.target_url) = false) :
    dispatchPlan c p n =
      { outcome := ExecOutcome.unsupported p.method, updates := [] } := by
  unfold dispatchPlan
  simp only [h, Bool.false_eq_true, if_false]

lemma assocGet_assocSet {α : Type} (m : List (String × α)) (k : String) (v : α) :
    assocGet (assocSet m k v) k = some v := by
  unfold assocGet assocSet
  by_cases h : (m.any (fun p => p.1 == k)) = true
  · simp only [h, if_true]
    induction m with
    | nil => simp at h
    | cons q qs ih =>
      by_cases hq : (q.1 == k) = true
      · simp only [List.map_cons, hq, if_true]
        rw [List.find?_cons_of_pos _ (by simp)]
        rfl
      · have h2 : qs.any (fun p => p.1 == k) = true := by
          simp only [List.any_cons, hq, Bool.false_or] at h
          exact h
        simp only [List.map_cons, hq, Bool.false_eq_true, if_false]
        rw [List.find?_cons_of_neg _ (by simpa using hq)]
        exact ih h2
  · have h' : m.any (fun p => p.1 == k) = false := by rwa [Bool.not_eq_true] at h
    simp only [h', Bool.false_eq_true, if_false]
    rw [List.find?_append]
    have hnone : m.find? (fun p => p.1 == k) = none := by
      rw [List.find?_eq_none]
      intro q hq
      have := List.any_eq_false.mp h' q hq
      simpa using this
    rw [hnone]
    simp

lemma execCore_key_and_store (tab : Tab) (rootVerb : String) (active : Verb)
    (planFn : Verb → Option ExecutionPlan) (now : Nat) :
    (∀ k, (execCore tab rootVerb active planFn now).planKey = some k →
      k = planKeyOf rootVerb tab) ∧
    (∀ patch ∈ (execCore tab rootVerb active planFn now).updates,
      ∀ m, patch.execution_plan_cache = some (some m) →
        ∃ plan, m = assocSet (tab.execution_plan_cache.getD [])
          (planKeyOf rootVerb tab) plan) := by
  unfold execCore
  by_cases hdet : (active.vtype == VerbType.navigate && jsTruthyStr active.target) = true
  · simp only [hdet, if_true]
    refine ⟨fun k hk => by simp at hk, fun patch hp m hm => ?_⟩
    rw [dispatchPlan_mem_updates hp] at hm
    exact absurd (Option.some.inj hm) (by simp)
  · have hdet' : (active.vtype == VerbType.navigate && jsTruthyStr active.target) = false := by
      rwa [Bool.not_eq_true] at hdet
    simp only [hdet', Bool.false_eq_true, if_false]
    cases hcache : tab.execution_plan_cache.bind
        (fun m => assocGet m (planKeyOf rootVerb tab)) with
    | some plan =>
      refine ⟨fun k hk => (Option.some.inj hk).symm, fun patch hp m hm => ?_⟩
      rw [dispatchPlan_mem_updates hp] at hm
      exact absurd (Option.some.inj hm) (by simp)
    | none =>
      cases hplan : planFn active with
      | none =>
        exact ⟨fun k hk => (Option.some.inj hk).symm, fun patch hp m hm => by simp at hp⟩
      | some plan =>
        refine ⟨fun k hk => (Option.some.inj hk).symm, fun patch hp m hm => ?_⟩
        rcases List.mem_cons.mp hp with hp | hp
        · refine ⟨plan, ?_⟩
          rw [hp] at hm
          have : some (assocSet (tab.execution_plan_cache.getD [])
              (planKeyOf rootVerb tab) plan) = some m := Option.some.inj hm
          exact (Option.some.inj this).symm
        · rw [dispatchPlan_mem_updates hp] at hm
          exact absurd (Option.some.inj hm) (by simp)

/-! ## Claim C1 -/

/-- C1 counterexample: resolving the child `about` through the container
`menu` consults the plan cache under `menu@https://x.example/` — the root
verb's name paired with the current URL — not under the composite
identity `menu.about@https://x.example/` the claim prescribes. -/
theorem claim_C1_counterexample :
    (executeVerb c1Tab "menu" ["about"] c1PlanFn 0).planKey =
        some "menu@https://x.example/" ∧
      (executeVerb c1Tab "menu" ["about"] c1PlanFn 0).planKey ≠
        some "menu.about@https://x.example/" := by
  constructor
  · decide
  · decide

/-- C1 (amended): whenever the execution path consults the plan cache —
for a top-level verb or for a child verb resolved through a container —
both the lookup and the store of a newly produced plan use the key built
from the root verb name paired with the tab's `current_url`; the composite
identity `root.child` is computed by the source but never used for
caching. -/
theorem claim_C1_plan_cache_key (tab : Tab) (verb : String)
    (params : List String) (planFn : Verb → Option ExecutionPlan) (now : Nat) :
    (∀ k, (executeVerb tab verb params planFn now).planKey = some k →
      k = planKeyOf verb tab) ∧
    (∀ patch ∈ (executeVerb tab verb params planFn now).updates,
      ∀ m, patch.execution_plan_cache = some (some m) →
        ∃ plan, m = assocSet (tab.execution_plan_cache.getD [])
          (planKeyOf verb tab) plan) := by
  unfold executeVerb
  cases hcv : tab.verb_cache.bind (fun m => assocGet m verb) with
  | none =>
    exact ⟨fun k hk => by simp at hk, fun patch hp m hm => by simp at hp⟩
  | some cv =>
    by_cases hc : jsTruthySubverbs cv.subverbs = true
    · simp only [hc, if_true]
      cases params with
      | nil =>
        exact ⟨fun k hk => by simp at hk, fun patch hp m hm => by simp at hp⟩
      | cons child rest =>
        dsimp only
        cases hfind : (cv.subverbs.getD []).find? (fun sv => sv.name == child) with
        | none =>
          exact ⟨fun k hk => by simp at hk, fun patch hp m hm => by simp at hp⟩
        | some sv => exact execCore_key_and_store tab verb sv planFn now
    · have hc' : jsTruthySubverbs cv.subverbs = false := by
        rwa [Bool.not_eq_true] at hc
      simp only [hc', Bool.false_eq_true, if_false]
      exact execCore_key_and_store tab verb cv planFn now

/-- C1 witness: the amended key property at the concrete container
invocation of `claim_C1_counterexample`'s scenario. -/
theorem claim_C1_witness :
    "menu@https://x.example/" = planKeyOf "menu" c1Tab :=
  (claim_C1_plan_cache_key c1Tab "menu" ["about"] c1PlanFn 0).1
    "menu@https://x.example/" (by decide)

/-! ## Claim C10 -/

/-- C10: on a plan-cache miss where the Planner produces a plan whose
method is not `navigate`, the plan is persisted into the tab's
`execution_plan_cache` (the single update written) before the
unimplemented-method failure terminates the invocation, so the error path
leaves the persisted tab changed: the merged record now answers the
plan-cache lookup that had just missed. -/
theorem claim_C10_error_path_mutates (tab : Tab) (verb : String)
    (params : List String) (planFn : Verb → Option ExecutionPlan) (now : Nat)
    (cv : Verb) (p : ExecutionPlan)
    (hcv : tab.verb_cache.bind (fun m => assocGet m verb) = some cv)
    (hnc : jsTruthySubverbs cv.subverbs = false)
    (hdet : (cv.vtype == VerbType.navigate && jsTruthyStr cv.target) = false)
    (hmiss : tab.execution_plan_cache.bind
      (fun m => assocGet m (planKeyOf verb tab)) = none)
    (hplan : planFn cv = some p)
    (hm : (p.method == PlanMethod.navigate && jsTruthyStr p.target_url) = false) :
    (executeVerb tab verb params planFn now).outcome =
        ExecOutcome.unsupported p.method ∧
      (executeVerb tab verb params planFn now).updates =
        [planCachePatch tab (planKeyOf verb tab) p] ∧
      assocGet ((mergeTab tab (planCachePatch tab (planKeyOf verb tab) p)).execution_plan_cache.getD [])
          (planKeyOf verb tab) = some p ∧
      mergeTab tab (planCachePatch tab (planKeyOf verb tab) p) ≠ tab := by
  have hexec : executeVerb tab verb params planFn now =
      { outcome := ExecOutcome.unsupported p.method
        planKey := some (planKeyOf verb tab)
        updates := [planCachePatch tab (planKeyOf verb tab) p] } := by
    unfold executeVerb
    rw [hcv]
    dsimp only
    rw [hnc]
    simp only [Bool.false_eq_true, if_false]
    unfold execCore
    rw [hdet]
    simp only [Bool.false_eq_true, if_false]
    rw [hmiss]
    dsimp only
    rw [hplan]
    dsimp only
    rw [dispatchPlan_not_navigate hm]
  have hget : assocGet ((mergeTab tab (planCachePatch tab (planKeyOf verb tab) p)).execution_plan_cache.getD [])
      (planKeyOf verb tab) = some p := by
    show assocGet (assocSet (tab.execution_plan_cache.getD []) (planKeyOf verb tab) p)
      (planKeyOf verb tab) = some p
    exact assocGet_assocSet _ _ _
  refine ⟨by rw [hexec], by rw [hexec], hget, ?_⟩
  intro heq
  have h1 : (mergeTab tab (planCachePatch tab (planKeyOf verb tab) p)).execution_plan_cache =
      some (assocSet (tab.execution_plan_cache.getD []) (planKeyOf verb tab) p) := rfl
  rw [heq] at h1
  rw [h1] at hmiss
  rw [Option.some_bind] at hmiss
  rw [assocGet_assocSet] at hmiss
  exact Option.noConfusion hmiss

/-- C10 witness: the error-path mutation at the concrete scenario: the
invocation fails as unsupported yet writes the plan-cache update. -/
theorem claim_C10_witness :
    (executeVerb c10Tab "do-it" [] (fun _ => some c10Plan) 0).outcome =
        ExecOutcome.unsupported PlanMethod.form ∧
      (executeVerb c10Tab "do-it" [] (fun _ => some c10Plan) 0).updates =
        [planCachePatch c10Tab (planKeyOf "do-it" c10Tab) c10Plan] ∧
      mergeTab c10Tab (planCachePatch c10Tab (planKeyOf "do-it" c10Tab) c10Plan) ≠
        c10Tab := by
  have h := claim_C10_error_path_mutates c10Tab "do-it" [] (fun _ => some c10Plan)
    0 c10Verb c10Plan (by decide) (by decide) (by decide) (by decide) rfl (by decide)
  exact ⟨h.1, h.2.1, h.2.2.2⟩

/-! ## Claim C3 -/

/-- C3: verb discovery reuses the cached verb list exactly when
`verb_cache` is present, the forced-Planner flag is off, and `now` is
before `verb_cache_expires`; in the reuse case the cached list itself is
returned with no fetch and no write, and in every other case the page is
fetched, verbs are re-extracted (LLM when forced and available, else the
structural extractor) and persisted as a fresh cache keyed by verb name
expiring five minutes from now. -/
theorem claim_C3_verb_cache_policy (now : Nat) (tab : Tab)
    (useLlm llmAvailable : Bool) (llmVerbs : List Verb) (fr : FetchResult) :
    ((discoverVerbs now tab useLlm llmAvailable llmVerbs fr).fetched = false ↔
      (useLlm = false ∧ tab.verb_cache.isSome = true ∧
        ∃ e, tab.verb_cache_expires = some e ∧ now < e)) ∧
    ((discoverVerbs now tab useLlm llmAvailable llmVerbs fr).fetched = false →
      (discoverVerbs now tab useLlm llmAvailable llmVerbs fr).verbs =
          assocValues (tab.verb_cache.getD []) ∧
        (discoverVerbs now tab useLlm llmAvailable llmVerbs fr).update = none) ∧
    ((discoverVerbs now tab useLlm llmAvailable llmVerbs fr).fetched = true →
      (discoverVerbs now tab useLlm llmAvailable llmVerbs fr).verbs =
          (if useLlm && llmAvailable then llmVerbs
            else (htmlParse fr.html fr.text fr.url).verbs) ∧
        (discoverVerbs now tab useLlm llmAvailable llmVerbs fr).update =
          some { verb_cache := some (some (buildVerbCache
                    ((discoverVerbs now tab useLlm llmAvailable llmVerbs fr).verbs)))
                 verb_cache_expires := some (some (now + 5 * 60 * 1000)) }) := by
  simp only [discoverVerbs]
  by_cases hc : ((tab.verb_cache_expires.isSome &&
      decide (now < tab.verb_cache_expires.getD 0)) &&
      tab.verb_cache.isSome && !useLlm) = true
  · simp only [hc, if_true]
    refine ⟨?_, fun _ => ⟨by trivial, by trivial⟩, fun hf => absurd hf (by simp)⟩
    constructor
    · intro _
      simp only [Bool.and_eq_true, Bool.not_eq_true'] at hc
      obtain ⟨⟨⟨hexp, hlt⟩, hvc⟩, hllm⟩ := hc
      refine ⟨hllm, hvc, ?_⟩
      cases he : tab.verb_cache_expires with
      | none => rw [he] at hexp; simp at hexp
      | some e =>
        rw [he] at hlt
        exact ⟨e, rfl, by simpa using hlt⟩
    · intro _
      trivial
  · have hc' : ((tab.verb_cache_expires.isSome &&
        decide (now < tab.verb_cache_expires.getD 0)) &&
        tab.verb_cache.isSome && !useLlm) = false := by
      rwa [Bool.not_eq_true] at hc
    simp only [hc', Bool.false_eq_true, if_false]
    refine ⟨?_, fun hf => absurd hf (by simp), fun _ => ⟨by trivial, by trivial⟩⟩
    constructor
    · intro hf
      exact absurd hf (by simp)
    · rintro ⟨hllm, hvc, e, he, hlt⟩
      exfalso
      rw [he, hllm, hvc] at hc'
      simp only [Option.isSome_some, Option.getD_some, Bool.true_and,
        Bool.not_false, Bool.and_true] at hc'
      rw [decide_eq_true hlt] at hc'
      exact Bool.noConfusion hc'

/-- C3 witness: the reuse case at time 5 < 100 with no bypass: the cached
verb list is returned and nothing is written. -/
theorem claim_C3_witness :
    (discoverVerbs 5 c3Tab false false [] c3Fetch).verbs =
        assocValues (c3Tab.verb_cache.getD []) ∧
      (discoverVerbs 5 c3Tab false false [] c3Fetch).update = none :=
  (claim_C3_verb_cache_policy 5 c3Tab false false [] c3Fetch).2.1 (by decide)
